import Mathlib

/-!
Verification of the MSM analysis pipeline specification for the
CCPBioSim/msm_workshop repository.

The repository's notebooks delegate all numerical work (count matrices,
transition-matrix estimation, spectral analysis, PCCA, TPT) to an external
library, so the pipeline components themselves are modelled here from the
specification's component descriptions (sections 3, 4 and 7 of the spec)
and the claims are settled against those models.  All arithmetic is exact
rational arithmetic, so the floating tolerances of the spec are witnessed
by exact identities.
-/

namespace MSM

/-! ## CountMatrixBuilder (spec section 4.1) -/

/-- Modelled from the spec: the list of observed lagged transition pairs
`(x[t], x[t+lag])` of a single discrete trajectory, for all valid `t`. -/
def transitionPairs (traj : List ℕ) (lag : ℕ) : List (ℕ × ℕ) :=
  traj.zip (traj.drop lag)

/-- Modelled from the spec: the number of observed `i → j` transitions at
the given lag inside one trajectory. -/
def countOne (traj : List ℕ) (lag : ℕ) (i j : ℕ) : ℕ :=
  (transitionPairs traj lag).count (i, j)

/-- Modelled from the spec: CountMatrixBuilder sums the per-trajectory
counts across trajectories; trajectories are never concatenated. -/
def countMatrix (trajs : List (List ℕ)) (lag : ℕ) (i j : ℕ) : ℕ :=
  (trajs.map (fun t => countOne t lag i j)).sum

/-- Modelled from the spec: the error taxonomy of section 7. -/
inductive MSMError where
  | InvalidLagError : MSMError
  | DisconnectedInputError : MSMError
  | InvalidStateCountError : MSMError
  | DisjointSetViolationError : MSMError
  | SingularSystemError : MSMError
deriving DecidableEq, Repr

/-- Modelled from the spec: CountMatrixBuilder fails with `InvalidLagError`
if `lag < 1` or `lag ≥ length of every trajectory`; otherwise it returns
the summed count matrix. -/
def buildCountMatrix (trajs : List (List ℕ)) (lag : ℕ) :
    Except MSMError (ℕ → ℕ → ℕ) :=
  if lag < 1 then .error .InvalidLagError
  else if trajs.all (fun t => t.length ≤ lag) then .error .InvalidLagError
  else .ok (countMatrix trajs lag)

theorem transitionPairs_length (traj : List ℕ) (lag : ℕ) :
    (transitionPairs traj lag).length = traj.length - lag := by
  simp [transitionPairs]

theorem mem_transitionPairs {traj : List ℕ} {lag : ℕ} {i j : ℕ} :
    (i, j) ∈ transitionPairs traj lag ↔
      ∃ t, ∃ h : t + lag < traj.length, traj[t] = i ∧ traj[t + lag] = j := by
  rw [List.mem_iff_getElem]
  constructor
  · rintro ⟨t, ht, hget⟩
    have ht' : t + lag < traj.length := by
      rw [transitionPairs_length] at ht; omega
    simp only [transitionPairs] at hget
    rw [List.getElem_zip, Prod.mk.injEq] at hget
    refine ⟨t, ht', hget.1, ?_⟩
    have h2 := hget.2
    rw [List.getElem_drop] at h2
    rw [← h2]
    congr 1
    omega
  · rintro ⟨t, h, hi, hj⟩
    have htlt : t < (transitionPairs traj lag).length := by
      rw [transitionPairs_length]; omega
    refine ⟨t, htlt, ?_⟩
    have hdrop : t < (traj.drop lag).length := by
      simp; omega
    have hz : (transitionPairs traj lag)[t] = (traj[t], (traj.drop lag)[t]) := by
      simp only [transitionPairs]
      rw [List.getElem_zip]
    rw [hz, List.getElem_drop, Prod.mk.injEq]
    refine ⟨hi, ?_⟩
    rw [← hj]
    congr 1
    omega

theorem transitionPairs_eq_map_range (traj : List ℕ) (lag : ℕ) :
    transitionPairs traj lag =
      (List.range (traj.length - lag)).map
        (fun t => (traj.getD t 0, traj.getD (t + lag) 0)) := by
  apply List.ext_getElem
  · simp [transitionPairs_length]
  · intro t h1 h2
    rw [transitionPairs_length] at h1
    have ht : t < traj.length := by omega
    have ht' : t + lag < traj.length := by omega
    have hdrop : t < (traj.drop lag).length := by simp; omega
    have hz : (transitionPairs traj lag)[t] = (traj[t], (traj.drop lag)[t]) := by
      simp only [transitionPairs]
      rw [List.getElem_zip]
    rw [hz, List.getElem_drop]
    have hr : t < (List.range (traj.length - lag)).length := by simp; omega
    rw [List.getElem_map, List.getElem_range]
    rw [List.getD_eq_getElem traj 0 ht, List.getD_eq_getElem traj 0 ht']
    refine Prod.ext rfl ?_
    simp only
    congr 1
    omega

theorem countOne_eq_countP (traj : List ℕ) (lag i j : ℕ) :
    countOne traj lag i j =
      (List.range (traj.length - lag)).countP
        (fun t => (traj.getD t 0, traj.getD (t + lag) 0) == (i, j)) := by
  rw [countOne, transitionPairs_eq_map_range, List.count_eq_countP,
    List.countP_map]
  rfl

theorem countOne_pos_iff {traj : List ℕ} {lag i j : ℕ} :
    0 < countOne traj lag i j ↔
      ∃ t, ∃ h : t + lag < traj.length, traj[t] = i ∧ traj[t + lag] = j := by
  rw [countOne, List.count_pos_iff, mem_transitionPairs]

/-- C3: CountMatrixBuilder counts the pair `(x[t], x[t+lag])` for all valid
`t` within each trajectory independently and sums the per-trajectory
counts; a transition is counted only when both endpoints lie at lag
distance inside one and the same trajectory, so no cross-trajectory
transition is ever counted. -/
theorem countMatrix_no_cross_trajectory_transitions
    (trajs : List (List ℕ)) (lag i j : ℕ) :
    countMatrix trajs lag i j = (trajs.map (fun t => countOne t lag i j)).sum
    ∧ (∀ traj : List ℕ, countOne traj lag i j =
        (List.range (traj.length - lag)).countP
          (fun t => (traj.getD t 0, traj.getD (t + lag) 0) == (i, j)))
    ∧ (0 < countMatrix trajs lag i j ↔
        ∃ traj ∈ trajs, ∃ t, ∃ h : t + lag < traj.length,
          traj[t] = i ∧ traj[t + lag] = j) := by
  refine ⟨rfl, fun traj => countOne_eq_countP traj lag i j, ?_⟩
  rw [countMatrix, Nat.pos_iff_ne_zero, Ne, List.sum_eq_zero_iff]
  push_neg
  constructor
  · rintro ⟨x, hx, hxne⟩
    rw [List.mem_map] at hx
    obtain ⟨traj, htraj, rfl⟩ := hx
    have hpos : 0 < countOne traj lag i j := Nat.pos_of_ne_zero hxne
    rw [countOne_pos_iff] at hpos
    exact ⟨traj, htraj, hpos⟩
  · rintro ⟨traj, htraj, hex⟩
    refine ⟨countOne traj lag i j, List.mem_map.mpr ⟨traj, htraj, rfl⟩, ?_⟩
    have : 0 < countOne traj lag i j := countOne_pos_iff.mpr hex
    omega

/-- C8: `buildCountMatrix` fails with `InvalidLagError` exactly when
`lag < 1` or the lag is at least the length of every trajectory, and it
succeeds — returning the complete summed count matrix, with no retry and
no partial result — exactly when `lag ≥ 1` and at least one trajectory is
strictly longer than the lag. -/
theorem buildCountMatrix_invalid_lag (trajs : List (List ℕ)) (lag : ℕ) :
    (buildCountMatrix trajs lag = .error .InvalidLagError ↔
      lag < 1 ∨ ∀ traj ∈ trajs, traj.length ≤ lag)
    ∧ (buildCountMatrix trajs lag = .ok (countMatrix trajs lag) ↔
      1 ≤ lag ∧ ∃ traj ∈ trajs, lag < traj.length) := by
  unfold buildCountMatrix
  by_cases h1 : lag < 1
  · simp only [if_pos h1]
    constructor
    · simp [h1]
    · constructor
      · intro h; cases h
      · intro h; omega
  · simp only [if_neg h1]
    by_cases h2 : trajs.all (fun t => decide (t.length ≤ lag)) = true
    · simp only [if_pos h2]
      rw [List.all_eq_true] at h2
      constructor
      · simp only [true_iff]
        right
        intro traj htraj
        have := h2 traj htraj
        simpa using this
      · constructor
        · intro h; cases h
        · rintro ⟨-, traj, htraj, hlen⟩
          have := h2 traj htraj
          simp at this
          omega
    · simp only [if_neg h2]
      rw [List.all_eq_true] at h2
      push_neg at h2
      obtain ⟨traj, htraj, hlen⟩ := h2
      simp at hlen
      constructor
      · constructor
        · intro h; cases h
        · rintro (h | h)
          · omega
          · exact absurd (h traj htraj) (by omega)
      · constructor
        · intro _; exact ⟨by omega, traj, htraj, hlen⟩
        · intro _; trivial

/-! ## TransitionMatrixEstimator and SpectralAnalyzer (spec sections 4.3, 4.4) -/

/-- Modelled from the spec: a row-stochastic matrix over the active set has
nonnegative entries and rows summing to one. -/
def IsStochastic {n : ℕ} (P : Fin n → Fin n → ℚ) : Prop :=
  (∀ i j, 0 ≤ P i j) ∧ ∀ i, ∑ j, P i j = 1

/-- Modelled from the spec: maximum-likelihood estimation in the
non-reversible case is row-normalization of the restricted count matrix. -/
def transition_matrix {n : ℕ} (C : Fin n → Fin n → ℚ) : Fin n → Fin n → ℚ :=
  fun i j => C i j / ∑ k, C i k

/-- Laplace expansion of a determinant of a rational list matrix, with
explicit fuel for structural recursion. -/
def detAux : ℕ → List (List ℚ) → ℚ
  | _, [] => 1
  | 0, _ :: _ => 0
  | fuel + 1, r :: rs =>
    ((List.range r.length).map
      (fun j => (-1 : ℚ) ^ j * r.getD j 0 *
        detAux fuel (rs.map (fun row => row.eraseIdx j)))).sum

/-- Determinant of a square rational list matrix. -/
def detList (m : List (List ℚ)) : ℚ := detAux m.length m

/-- The matrix `I - P` as a list matrix. -/
def systemMatrix {n : ℕ} (P : Fin n → Fin n → ℚ) : List (List ℚ) :=
  List.ofFn (fun i : Fin n => List.ofFn (fun j : Fin n =>
    (if i = j then 1 else 0) - P i j))

/-- Delete row `j` and column `j` of a list matrix. -/
def principalMinor (m : List (List ℚ)) (j : ℕ) : List (List ℚ) :=
  (m.eraseIdx j).map (fun row => row.eraseIdx j)

/-- Candidate stationary vector via the cofactor (Markov-chain tree)
formula: the `j`-th principal minor of `I - P`. -/
def stationaryCandidate {n : ℕ} (P : Fin n → Fin n → ℚ) : Fin n → ℚ :=
  fun j => detList (principalMinor (systemMatrix P) j.val)

/-- The candidate stationary vector normalized to total mass one. -/
def normalizedCandidate {n : ℕ} (P : Fin n → Fin n → ℚ) : Fin n → ℚ :=
  fun i => stationaryCandidate P i / ∑ k, stationaryCandidate P k

/-- Modelled from the spec: SpectralAnalyzer normalizes the stationary
(left, eigenvalue-1) eigenvector to sum to 1 and, per the error-handling
design of spec section 7, aborts — rather than return a vector — whenever
the defining invariants (nonnegative probability vector fixed by the
transition matrix) are violated. -/
def stationary_distribution {n : ℕ} (P : Fin n → Fin n → ℚ) :
    Option (Fin n → ℚ) :=
  if (∀ i, 0 ≤ normalizedCandidate P i) ∧ (∑ i, normalizedCandidate P i) = 1
      ∧ (∀ j, ∑ i, normalizedCandidate P i * P i j = normalizedCandidate P j)
  then some (normalizedCandidate P) else none

theorem stationary_distribution_spec {n : ℕ} {P : Fin n → Fin n → ℚ}
    {pi : Fin n → ℚ} (h : stationary_distribution P = some pi) :
    (∀ i, 0 ≤ pi i) ∧ (∑ i, pi i) = 1 ∧ ∀ j, ∑ i, pi i * P i j = pi j := by
  unfold stationary_distribution at h
  split_ifs at h with hch
  obtain rfl : normalizedCandidate P = pi := Option.some.inj h
  exact hch

theorem transition_matrix_row_sum {n : ℕ} (C : Fin n → Fin n → ℚ) (i : Fin n)
    (hC : (∑ k, C i k) ≠ 0) : ∑ j, transition_matrix C i j = 1 := by
  unfold transition_matrix
  rw [← Finset.sum_div]
  exact div_self hC

/-- C1: every row of the TransitionMatrix produced by row-normalizing a
count matrix with positive row sums sums to exactly 1 (hence within
1e-10), and whenever the SpectralAnalyzer produces a StationaryDistribution
for it, that vector is a probability vector (nonnegative, summing to 1)
fixed by left multiplication, so the sup norm of πᵗP − πᵗ is 0 < 1e-8. -/
theorem transition_rows_one_and_stationary_fixed {n : ℕ}
    (C : Fin n → Fin n → ℚ) (hC : ∀ i, 0 < ∑ k, C i k)
    (pi : Fin n → ℚ)
    (hpi : stationary_distribution (transition_matrix C) = some pi) :
    (∀ i, |(∑ j, transition_matrix C i j) - 1| ≤ 1 / 10 ^ 10)
    ∧ (∀ i, 0 ≤ pi i) ∧ (∑ i, pi i) = 1
    ∧ (∀ j, |(∑ i, pi i * transition_matrix C i j) - pi j| < 1 / 10 ^ 8) := by
  obtain ⟨hnn, hsum, hfix⟩ := stationary_distribution_spec hpi
  refine ⟨fun i => ?_, hnn, hsum, fun j => ?_⟩
  · rw [transition_matrix_row_sum C i (ne_of_gt (hC i))]
    norm_num
  · rw [hfix j]
    norm_num

/-- The count matrix of the worked example of spec section 8. -/
def exampleCounts : Fin 2 → Fin 2 → ℚ := ![![8, 2], ![3, 7]]

/-- The transition matrix of the worked example of spec section 8. -/
def exampleP : Fin 2 → Fin 2 → ℚ := ![![4/5, 1/5], ![3/10, 7/10]]

/-- The stationary distribution of the worked example of spec section 8. -/
def examplePi : Fin 2 → ℚ := ![3/5, 2/5]

theorem transition_matrix_example :
    transition_matrix exampleCounts = exampleP := by
  funext i j
  fin_cases i <;> fin_cases j <;>
    norm_num [transition_matrix, exampleCounts, exampleP, Fin.sum_univ_two]

theorem examplePi_prob_vector :
    (∀ i : Fin 2, 0 ≤ examplePi i) ∧ (∑ i, examplePi i) = 1
    ∧ (∀ j : Fin 2, ∑ i, examplePi i * exampleP i j = examplePi j) := by
  refine ⟨fun i => ?_, ?_, fun j => ?_⟩
  · fin_cases i <;> norm_num [examplePi]
  · norm_num [examplePi, Fin.sum_univ_two]
  · fin_cases j <;> norm_num [examplePi, exampleP, Fin.sum_univ_two]

theorem normalizedCandidate_example :
    normalizedCandidate exampleP = examplePi := by
  funext i
  fin_cases i <;>
    norm_num [normalizedCandidate, stationaryCandidate, detList, detAux,
      principalMinor, systemMatrix, List.ofFn_succ, List.range_succ,
      exampleP, examplePi, Fin.sum_univ_two]

theorem stationary_distribution_example :
    stationary_distribution exampleP = some examplePi := by
  unfold stationary_distribution
  rw [normalizedCandidate_example, if_pos examplePi_prob_vector]

theorem exampleCounts_row_pos : ∀ i : Fin 2, 0 < ∑ k, exampleCounts i k := by
  intro i
  fin_cases i <;> norm_num [exampleCounts, Fin.sum_univ_two]

theorem exampleP_stochastic : IsStochastic exampleP := by
  constructor
  · intro i j
    fin_cases i <;> fin_cases j <;> norm_num [exampleP]
  · intro i
    fin_cases i <;> norm_num [exampleP, Fin.sum_univ_two]

/-- C4: the 2-state fully-connected CountMatrix [[8,2],[3,7]] at lag 1
row-normalizes to the TransitionMatrix [[0.8,0.2],[0.3,0.7]], whose
stationary distribution — the probability vector solving πP = π with π
summing to 1, as computed by the modelled SpectralAnalyzer — is
π = [0.6, 0.4]. -/
theorem example_two_state_estimation :
    (∀ i j, transition_matrix exampleCounts i j = exampleP i j)
    ∧ (∑ i, examplePi i) = 1
    ∧ (∀ j, ∑ i, examplePi i * exampleP i j = examplePi j)
    ∧ stationary_distribution exampleP = some examplePi := by
  refine ⟨?_, examplePi_prob_vector.2.1, examplePi_prob_vector.2.2,
    stationary_distribution_example⟩
  intro i j
  rw [transition_matrix_example]

/-- The constant-one right eigenvector. -/
def constOne (n : ℕ) : Fin n → ℚ := fun _ => 1

theorem eigenvalue_magnitude_le_one {n : ℕ} {P : Fin n → Fin n → ℚ}
    (hP : IsStochastic P) {lam : ℚ} {v : Fin n → ℚ} (hv : v ≠ 0)
    (heig : ∀ i, ∑ j, P i j * v j = lam * v i) : |lam| ≤ 1 := by
  obtain ⟨i0, hi0ne⟩ : ∃ i, v i ≠ 0 := by
    by_contra hall
    push_neg at hall
    exact hv (funext hall)
  have hne : (Finset.univ : Finset (Fin n)).Nonempty :=
    ⟨i0, Finset.mem_univ i0⟩
  obtain ⟨m, -, hm⟩ := Finset.exists_max_image Finset.univ (fun i => |v i|) hne
  have hvmpos : 0 < |v m| :=
    lt_of_lt_of_le (abs_pos.mpr hi0ne) (hm i0 (Finset.mem_univ i0))
  have hkey : |lam| * |v m| ≤ |v m| := by
    rw [← abs_mul, ← heig m]
    calc |∑ j, P m j * v j| ≤ ∑ j, |P m j * v j| :=
          Finset.abs_sum_le_sum_abs _ _
      _ = ∑ j, P m j * |v j| := by
          refine Finset.sum_congr rfl (fun j _ => ?_)
          rw [abs_mul, abs_of_nonneg (hP.1 m j)]
      _ ≤ ∑ j, P m j * |v m| := by
          refine Finset.sum_le_sum (fun j _ => ?_)
          exact mul_le_mul_of_nonneg_left (hm j (Finset.mem_univ j)) (hP.1 m j)
      _ = (∑ j, P m j) * |v m| := by rw [Finset.sum_mul]
      _ = |v m| := by rw [hP.2 m, one_mul]
  nlinarith [hkey, hvmpos]

/-- C2: for every stochastic TransitionMatrix the triple (1, π, constant-1)
is an eigenpair: the constant-one right eigenvector has eigenvalue exactly
1 and passes the max|v−1| < 1e-12 normalization assertion, the computed
StationaryDistribution is a left eigenvector to eigenvalue 1, and every
rational eigenvalue has magnitude at most 1, so after sorting by descending
eigenvalue magnitude the first eigenvalue is 1 (within 1e-10). -/
theorem spectral_first_eigenpair {n : ℕ} (P : Fin n → Fin n → ℚ)
    (hP : IsStochastic P) (pi : Fin n → ℚ)
    (hpi : stationary_distribution P = some pi) :
    (∀ i, ∑ j, P i j * constOne n j = 1 * constOne n i)
    ∧ (∀ i, |constOne n i - 1| < 1 / 10 ^ 12)
    ∧ (∀ j, ∑ i, pi i * P i j = 1 * pi j)
    ∧ (∀ (lam : ℚ) (v : Fin n → ℚ), v ≠ 0 →
        (∀ i, ∑ j, P i j * v j = lam * v i) → |lam| ≤ |(1 : ℚ)|) := by
  obtain ⟨-, -, hfix⟩ := stationary_distribution_spec hpi
  refine ⟨fun i => ?_, fun i => ?_, fun j => ?_, fun lam v hv heig => ?_⟩
  · simp only [constOne, mul_one, one_mul]
    exact hP.2 i
  · simp [constOne]
  · rw [hfix j, one_mul]
  · rw [abs_one]
    exact eigenvalue_magnitude_le_one hP hv heig

/-- Witness for C1 at the worked 2-state example. -/
theorem transition_rows_one_and_stationary_fixed_witness :
    (∀ i, 0 < ∑ k, exampleCounts i k)
    ∧ ((∀ i, |(∑ j, transition_matrix exampleCounts i j) - 1| ≤ 1 / 10 ^ 10)
       ∧ (∀ i, 0 ≤ examplePi i) ∧ (∑ i, examplePi i) = 1
       ∧ (∀ j, |(∑ i, examplePi i * transition_matrix exampleCounts i j)
            - examplePi j| < 1 / 10 ^ 8)) := by
  have hsome :
      stationary_distribution (transition_matrix exampleCounts)
        = some examplePi := by
    rw [transition_matrix_example]
    exact stationary_distribution_example
  exact ⟨exampleCounts_row_pos,
    transition_rows_one_and_stationary_fixed exampleCounts
      exampleCounts_row_pos examplePi hsome⟩

/-- Witness for C2 at the worked 2-state example. -/
theorem spectral_first_eigenpair_witness :
    IsStochastic exampleP
    ∧ ((∀ i, ∑ j, exampleP i j * constOne 2 j = 1 * constOne 2 i)
       ∧ (∀ i, |constOne 2 i - 1| < 1 / 10 ^ 12)
       ∧ (∀ j, ∑ i, examplePi i * exampleP i j = 1 * examplePi j)
       ∧ (∀ (lam : ℚ) (v : Fin 2 → ℚ), v ≠ 0 →
           (∀ i, ∑ j, exampleP i j * v j = lam * v i) → |lam| ≤ |(1 : ℚ)|)) :=
  ⟨exampleP_stochastic,
    spectral_first_eigenpair exampleP exampleP_stochastic examplePi
      stationary_distribution_example⟩

/-! ## TPTEngine committors (spec section 4.6) -/

/-- Modelled from the spec: the forward committor solves the linear system
with boundary conditions 0 on A, 1 on B, and the harmonic equation on the
complement of A ∪ B. -/
def IsForwardCommittor {n : ℕ} (P : Fin n → Fin n → ℚ) (A B : Finset (Fin n))
    (q : Fin n → ℚ) : Prop :=
  (∀ i ∈ A, q i = 0) ∧ (∀ i ∈ B, q i = 1)
  ∧ ∀ i, i ∉ A → i ∉ B → q i = ∑ j, P i j * q j

/-- Modelled from the spec: the backward committor — the probability of
hitting A before B from each state — solves the same linear system with
the roles of the boundary sets exchanged. -/
def IsBackwardCommittor {n : ℕ} (P : Fin n → Fin n → ℚ) (A B : Finset (Fin n))
    (q : Fin n → ℚ) : Prop :=
  (∀ i ∈ A, q i = 1) ∧ (∀ i ∈ B, q i = 0)
  ∧ ∀ i, i ∉ A → i ∉ B → q i = ∑ j, P i j * q j

/-- Modelled from the spec: nonsingularity of the committor linear system,
i.e. the homogeneous system has only the zero solution.  Per spec section
4.6 a singular system raises `SingularSystemError` and cannot occur for an
irreducible TransitionMatrix. -/
def CommittorSystemNonsingular {n : ℕ} (P : Fin n → Fin n → ℚ)
    (A B : Finset (Fin n)) : Prop :=
  ∀ v : Fin n → ℚ, (∀ i, i ∈ A ∨ i ∈ B → v i = 0) →
    (∀ i, i ∉ A → i ∉ B → v i = ∑ j, P i j * v j) → v = 0

/-- C5: for disjoint sets A and B on a row-stochastic TransitionMatrix with
a nonsingular committor system (guaranteed by irreducibility), the forward
committor is 0 on A and 1 on B, the backward committor symmetrically 1 on A
and 0 on B, and for every state outside A ∪ B the two committors sum to
exactly 1, hence within 1e-8. -/
theorem committor_boundary_and_sum {n : ℕ} (P : Fin n → Fin n → ℚ)
    (A B : Finset (Fin n)) (hAB : Disjoint A B)
    (hrow : ∀ i, ∑ j, P i j = 1) (qf qb : Fin n → ℚ)
    (hqf : IsForwardCommittor P A B qf) (hqb : IsBackwardCommittor P A B qb)
    (huniq : CommittorSystemNonsingular P A B) :
    (∀ i ∈ A, qf i = 0) ∧ (∀ i ∈ B, qf i = 1)
    ∧ (∀ i ∈ A, qb i = 1) ∧ (∀ i ∈ B, qb i = 0)
    ∧ ∀ i, i ∉ A → i ∉ B → |qf i + qb i - 1| < 1 / 10 ^ 8 := by
  obtain ⟨hf0, hf1, hfh⟩ := hqf
  obtain ⟨hb1, hb0, hbh⟩ := hqb
  have hd : (fun i => qf i + qb i - 1) = 0 := by
    apply huniq
    · intro i hi
      rcases hi with hiA | hiB
      · rw [hf0 i hiA, hb1 i hiA]; ring
      · rw [hf1 i hiB, hb0 i hiB]; ring
    · intro i hiA hiB
      show qf i + qb i - 1 = ∑ j, P i j * (qf j + qb j - 1)
      have hsplit : ∑ j, P i j * (qf j + qb j - 1)
          = ((∑ j, P i j * qf j) + ∑ j, P i j * qb j) - ∑ j, P i j := by
        rw [← Finset.sum_add_distrib, ← Finset.sum_sub_distrib]
        exact Finset.sum_congr rfl (fun j _ => by ring)
      rw [hsplit, ← hfh i hiA hiB, ← hbh i hiA hiB, hrow i]
  refine ⟨hf0, hf1, hb1, hb0, fun i hiA hiB => ?_⟩
  have h0 : qf i + qb i - 1 = 0 := by simpa using congrFun hd i
  rw [h0]
  norm_num

/-- A 3-state chain used to instantiate the TPT theorems. -/
def exampleP3 : Fin 3 → Fin 3 → ℚ :=
  ![![1/2, 1/2, 0], ![1/4, 1/2, 1/4], ![0, 1/2, 1/2]]

/-- Source set of the TPT example. -/
def exampleA : Finset (Fin 3) := {0}

/-- Target set of the TPT example. -/
def exampleB : Finset (Fin 3) := {2}

/-- Forward committor of the 3-state example. -/
def exampleQf : Fin 3 → ℚ := ![0, 1/2, 1]

/-- Backward committor of the 3-state example. -/
def exampleQb : Fin 3 → ℚ := ![1, 1/2, 0]

theorem exampleP3_rows : ∀ i, ∑ j, exampleP3 i j = 1 := by
  intro i
  fin_cases i <;> norm_num [exampleP3, Fin.sum_univ_three]

theorem example_nonsingular :
    CommittorSystemNonsingular exampleP3 exampleA exampleB := by
  intro v h0 hh
  have hv0 : v 0 = 0 := h0 0 (Or.inl (by decide))
  have hv2 : v 2 = 0 := h0 2 (Or.inr (by decide))
  have hv1 : v 1 = ∑ j, exampleP3 1 j * v j := hh 1 (by decide) (by decide)
  rw [Fin.sum_univ_three] at hv1
  norm_num [exampleP3] at hv1
  funext i
  fin_cases i
  · exact hv0
  · show v 1 = 0
    rw [hv0, hv2] at hv1
    linarith
  · exact hv2

theorem example_forward_committor :
    IsForwardCommittor exampleP3 exampleA exampleB exampleQf := by
  refine ⟨?_, ?_, ?_⟩
  · intro i hi
    fin_cases hi
    norm_num [exampleQf]
  · intro i hi
    fin_cases hi
    norm_num [exampleQf]
  · intro i hiA hiB
    fin_cases i
    · exact absurd (by decide : (0 : Fin 3) ∈ exampleA) hiA
    · rw [Fin.sum_univ_three]
      norm_num [exampleP3, exampleQf]
    · exact absurd (by decide : (2 : Fin 3) ∈ exampleB) hiB

theorem example_backward_committor :
    IsBackwardCommittor exampleP3 exampleA exampleB exampleQb := by
  refine ⟨?_, ?_, ?_⟩
  · intro i hi
    fin_cases hi
    norm_num [exampleQb]
  · intro i hi
    fin_cases hi
    norm_num [exampleQb]
  · intro i hiA hiB
    fin_cases i
    · exact absurd (by decide : (0 : Fin 3) ∈ exampleA) hiA
    · rw [Fin.sum_univ_three]
      norm_num [exampleP3, exampleQb]
    · exact absurd (by decide : (2 : Fin 3) ∈ exampleB) hiB

/-- Witness for C5 at the 3-state chain example. -/
theorem committor_boundary_and_sum_witness :
    (Disjoint exampleA exampleB ∧ (∀ i, ∑ j, exampleP3 i j = 1)
      ∧ IsForwardCommittor exampleP3 exampleA exampleB exampleQf
      ∧ IsBackwardCommittor exampleP3 exampleA exampleB exampleQb
      ∧ CommittorSystemNonsingular exampleP3 exampleA exampleB)
    ∧ ((∀ i ∈ exampleA, exampleQf i = 0) ∧ (∀ i ∈ exampleB, exampleQf i = 1)
      ∧ (∀ i ∈ exampleA, exampleQb i = 1) ∧ (∀ i ∈ exampleB, exampleQb i = 0)
      ∧ ∀ i, i ∉ exampleA → i ∉ exampleB →
          |exampleQf i + exampleQb i - 1| < 1 / 10 ^ 8) :=
  ⟨⟨by decide, exampleP3_rows, example_forward_committor,
      example_backward_committor, example_nonsingular⟩,
    committor_boundary_and_sum exampleP3 exampleA exampleB (by decide)
      exampleP3_rows exampleQf exampleQb example_forward_committor
      example_backward_committor example_nonsingular⟩

/-! ## PCCADecomposer (spec section 4.5) -/

/-- Modelled from the spec: a MetastableDecomposition maps each active
state to a soft-membership vector over the k metastable sets together with
the induced hard assignment. -/
structure MetastableDecomposition (n k : ℕ) where
  memberships : Fin n → Fin k → ℚ
  assignments : Fin n → Fin k

/-- Fold computing the index of a maximal entry of a membership row. -/
def argmaxAux {k : ℕ} (row : Fin k → ℚ) : List (Fin k) → Fin k → Fin k
  | [], best => best
  | s :: rest, best => argmaxAux row rest (if row best < row s then s else best)

/-- Modelled from the spec: PCCADecomposer's fixed input/output contract —
soft memberships per state, nonnegative and summing to 1 across the k
sets, with hard assignment by per-state argmax; `InvalidStateCountError`
when k < 2.  The spec leaves the internal simplex optimization open and
fixes only this contract, which is validated before returning. -/
def pcca {n k : ℕ} (chi : Fin n → Fin k → ℚ) :
    Option (MetastableDecomposition n k) :=
  if hk : 2 ≤ k then
    if (∀ i s, 0 ≤ chi i s) ∧ (∀ i, ∑ s, chi i s = 1) then
      some ⟨chi, fun i => argmaxAux (chi i) (List.finRange k) ⟨0, by omega⟩⟩
    else none
  else none

theorem argmaxAux_ge {k : ℕ} (row : Fin k → ℚ) (l : List (Fin k)) :
    ∀ best : Fin k, row best ≤ row (argmaxAux row l best)
      ∧ ∀ s ∈ l, row s ≤ row (argmaxAux row l best) := by
  induction l with
  | nil =>
    intro best
    exact ⟨le_refl _, by simp⟩
  | cons x xs ih =>
    intro best
    simp only [argmaxAux]
    by_cases h : row best < row x
    · rw [if_pos h]
      refine ⟨le_trans (le_of_lt h) (ih x).1, ?_⟩
      intro s hs
      rcases List.mem_cons.mp hs with rfl | hs'
      · exact (ih s).1
      · exact (ih x).2 s hs'
    · rw [if_neg h]
      refine ⟨(ih best).1, ?_⟩
      intro s hs
      rcases List.mem_cons.mp hs with rfl | hs'
      · exact le_trans (not_lt.mp h) (ih best).1
      · exact (ih best).2 s hs'

/-- C6: every MetastableDecomposition produced by the PCCADecomposer has
each state's soft-membership row summing to 1 (exactly, hence within
1e-10) across the k metastable sets, and the hard assignment of each state
attains the maximum of its membership row (it is the argmax). -/
theorem pcca_row_sums_and_argmax {n k : ℕ} (chi : Fin n → Fin k → ℚ)
    (d : MetastableDecomposition n k) (h : pcca chi = some d) :
    (∀ i, |(∑ s, d.memberships i s) - 1| ≤ 1 / 10 ^ 10)
    ∧ ∀ i s, d.memberships i s ≤ d.memberships i (d.assignments i) := by
  unfold pcca at h
  split_ifs at h with hk hch
  obtain rfl : (⟨chi, fun i => argmaxAux (chi i) (List.finRange k)
      ⟨0, by omega⟩⟩ : MetastableDecomposition n k) = d := Option.some.inj h
  constructor
  · intro i
    show |(∑ s, chi i s) - 1| ≤ 1 / 10 ^ 10
    rw [hch.2 i]
    norm_num
  · intro i s
    show chi i s ≤ chi i (argmaxAux (chi i) (List.finRange k) ⟨0, by omega⟩)
    exact (argmaxAux_ge (chi i) (List.finRange k) ⟨0, by omega⟩).2 s
      (List.mem_finRange s)

/-- Membership row data instantiating the PCCA theorems. -/
def exampleChi : Fin 2 → Fin 2 → ℚ := ![![9/10, 1/10], ![1/5, 4/5]]

/-- The decomposition the modelled PCCADecomposer returns on
`exampleChi`. -/
def exampleDecomp : MetastableDecomposition 2 2 :=
  ⟨exampleChi, fun i => argmaxAux (exampleChi i) (List.finRange 2)
    ⟨0, by omega⟩⟩

theorem pcca_example : pcca exampleChi = some exampleDecomp := by
  have hcond : (∀ i s, 0 ≤ exampleChi i s)
      ∧ (∀ i : Fin 2, ∑ s, exampleChi i s = 1) := by
    constructor
    · intro i s
      fin_cases i <;> fin_cases s <;> norm_num [exampleChi]
    · intro i
      fin_cases i <;> norm_num [exampleChi, Fin.sum_univ_two]
  unfold pcca
  rw [dif_pos (by norm_num : 2 ≤ 2), if_pos hcond]
  rfl

/-- Witness for C6 on the concrete two-state membership data. -/
theorem pcca_row_sums_and_argmax_witness :
    pcca exampleChi = some exampleDecomp
    ∧ ((∀ i, |(∑ s, exampleDecomp.memberships i s) - 1| ≤ 1 / 10 ^ 10)
       ∧ ∀ i s, exampleDecomp.memberships i s
           ≤ exampleDecomp.memberships i (exampleDecomp.assignments i)) :=
  ⟨pcca_example,
    pcca_row_sums_and_argmax exampleChi exampleDecomp pcca_example⟩

/-- Modelled from the spec: the metastable set with label `s` collects the
active states hard-assigned to `s`. -/
def metastable_sets {n k : ℕ} (d : MetastableDecomposition n k) (s : Fin k) :
    Finset (Fin n) :=
  Finset.univ.filter (fun i => d.assignments i = s)

/-- C9: after a PCCA decomposition, the k metastable sets partition the
active set — every state is hard-assigned to exactly one set — so the
per-set stationary probability masses sum to exactly 1 across the k
sets. -/
theorem metastable_sets_partition_mass {n k : ℕ} (chi : Fin n → Fin k → ℚ)
    (d : MetastableDecomposition n k) (h : pcca chi = some d)
    (pi : Fin n → ℚ) (hpi : (∑ i, pi i) = 1) :
    (∀ i, ∃! s, i ∈ metastable_sets d s)
    ∧ (∑ s, ∑ i ∈ metastable_sets d s, pi i) = 1 := by
  constructor
  · intro i
    refine ⟨d.assignments i, ?_, ?_⟩
    · simp [metastable_sets]
    · intro s hs
      simp [metastable_sets] at hs
      exact hs.symm
  · rw [← hpi]
    exact Finset.sum_fiberwise Finset.univ d.assignments pi

/-- Witness for C9 on the concrete two-state decomposition. -/
theorem metastable_sets_partition_mass_witness :
    (pcca exampleChi = some exampleDecomp ∧ (∑ i, examplePi i) = 1)
    ∧ ((∀ i, ∃! s, i ∈ metastable_sets exampleDecomp s)
       ∧ (∑ s, ∑ i ∈ metastable_sets exampleDecomp s, examplePi i) = 1) :=
  ⟨⟨pcca_example, examplePi_prob_vector.2.1⟩,
    metastable_sets_partition_mass exampleChi exampleDecomp pcca_example
      examplePi examplePi_prob_vector.2.1⟩

/-! ## Mean first passage times (spec glossary, notebook MFPT matrix) -/

/-- Modelled from the spec: the vector of expected first passage times into
the target set T is 0 on T and solves m i = 1 + ∑ j P i j · m j on the
complement. -/
def IsMFPTVector {n : ℕ} (P : Fin n → Fin n → ℚ) (T : Finset (Fin n))
    (m : Fin n → ℚ) : Prop :=
  (∀ i ∈ T, m i = 0) ∧ ∀ i, i ∉ T → m i = 1 + ∑ j, P i j * m j

/-- Modelled from the spec: the mean first passage time from set S is the
stationary-weighted average of the per-state passage times over S. -/
def mfpt_set {n : ℕ} (pi : Fin n → ℚ) (S : Finset (Fin n))
    (m : Fin n → ℚ) : ℚ :=
  (∑ i ∈ S, pi i * m i) / ∑ i ∈ S, pi i

theorem mfpt_vector_nonneg {n : ℕ} {P : Fin n → Fin n → ℚ}
    (hP : IsStochastic P) {T : Finset (Fin n)} {m : Fin n → ℚ}
    (hm : IsMFPTVector P T m) : ∀ i, 0 ≤ m i := by
  intro i
  obtain ⟨i0, -, hmin⟩ := Finset.exists_min_image Finset.univ m
    ⟨i, Finset.mem_univ i⟩
  have hbase : 0 ≤ m i0 := by
    by_cases hT : i0 ∈ T
    · rw [hm.1 i0 hT]
    · exfalso
      have heq := hm.2 i0 hT
      have hsum : ∑ j, P i0 j * m i0 ≤ ∑ j, P i0 j * m j := by
        refine Finset.sum_le_sum (fun j _ => ?_)
        exact mul_le_mul_of_nonneg_left (hmin j (Finset.mem_univ j))
          (hP.1 i0 j)
      rw [← Finset.sum_mul, hP.2 i0, one_mul] at hsum
      linarith
  exact le_trans hbase (hmin i (Finset.mem_univ i))

/-- C10: the mean first passage time from any metastable set to itself is
0, and between distinct metastable sets it is positive (at least one
step), so the MFPT matrix vanishes exactly on its diagonal and the
reciprocals of the off-diagonal entries are well defined. -/
theorem mfpt_zero_exactly_on_diagonal {n k : ℕ} (P : Fin n → Fin n → ℚ)
    (hP : IsStochastic P) (d : MetastableDecomposition n k)
    (pi : Fin n → ℚ) (hpin : ∀ i, 0 ≤ pi i) (s t : Fin k) (hst : s ≠ t)
    (hmass : 0 < ∑ i ∈ metastable_sets d s, pi i)
    (mself mcross : Fin n → ℚ)
    (hself : IsMFPTVector P (metastable_sets d s) mself)
    (hcross : IsMFPTVector P (metastable_sets d t) mcross) :
    mfpt_set pi (metastable_sets d s) mself = 0
    ∧ 0 < mfpt_set pi (metastable_sets d s) mcross := by
  constructor
  · unfold mfpt_set
    have hnum : ∑ i ∈ metastable_sets d s, pi i * mself i = 0 := by
      refine Finset.sum_eq_zero (fun i hi => ?_)
      rw [hself.1 i hi, mul_zero]
    rw [hnum, zero_div]
  · unfold mfpt_set
    have hnn := mfpt_vector_nonneg hP hcross
    have hone : ∀ i ∈ metastable_sets d s, 1 ≤ mcross i := by
      intro i hi
      have hnotT : i ∉ metastable_sets d t := by
        simp only [metastable_sets, Finset.mem_filter, Finset.mem_univ,
          true_and] at hi ⊢
        rw [hi]
        exact hst
      rw [hcross.2 i hnotT]
      have hpos : 0 ≤ ∑ j, P i j * mcross j :=
        Finset.sum_nonneg (fun j _ => mul_nonneg (hP.1 i j) (hnn j))
      linarith
    have hnum : ∑ i ∈ metastable_sets d s, pi i
        ≤ ∑ i ∈ metastable_sets d s, pi i * mcross i := by
      refine Finset.sum_le_sum (fun i hi => ?_)
      calc pi i = pi i * 1 := (mul_one _).symm
        _ ≤ pi i * mcross i :=
          mul_le_mul_of_nonneg_left (hone i hi) (hpin i)
    exact div_pos (lt_of_lt_of_le hmass hnum) hmass

theorem exampleDecomp_assign0 : exampleDecomp.assignments 0 = 0 := by
  show argmaxAux (exampleChi 0) (List.finRange 2) ⟨0, by omega⟩ = 0
  rw [show List.finRange 2 = [0, 1] from rfl]
  norm_num [argmaxAux, exampleChi]

theorem exampleDecomp_assign1 : exampleDecomp.assignments 1 = 1 := by
  show argmaxAux (exampleChi 1) (List.finRange 2) ⟨0, by omega⟩ = 1
  rw [show List.finRange 2 = [0, 1] from rfl]
  norm_num [argmaxAux, exampleChi]

theorem exampleDecomp_sets0 : metastable_sets exampleDecomp 0 = {0} := by
  ext i
  fin_cases i <;>
    simp [metastable_sets, exampleDecomp_assign0, exampleDecomp_assign1]

theorem exampleDecomp_sets1 : metastable_sets exampleDecomp 1 = {1} := by
  ext i
  fin_cases i <;>
    simp [metastable_sets, exampleDecomp_assign0, exampleDecomp_assign1]

/-- Expected passage times into metastable set 0 of the example. -/
def exampleMself : Fin 2 → ℚ := ![0, 10/3]

/-- Expected passage times into metastable set 1 of the example. -/
def exampleMcross : Fin 2 → ℚ := ![5, 0]

theorem example_mself_vec :
    IsMFPTVector exampleP (metastable_sets exampleDecomp 0) exampleMself := by
  rw [exampleDecomp_sets0]
  constructor
  · intro i hi
    fin_cases hi
    norm_num [exampleMself]
  · intro i hi
    fin_cases i
    · exact absurd (by decide : (0 : Fin 2) ∈ ({0} : Finset (Fin 2))) hi
    · rw [Fin.sum_univ_two]
      norm_num [exampleP, exampleMself]

theorem example_mcross_vec :
    IsMFPTVector exampleP (metastable_sets exampleDecomp 1) exampleMcross := by
  rw [exampleDecomp_sets1]
  constructor
  · intro i hi
    fin_cases hi
    norm_num [exampleMcross]
  · intro i hi
    fin_cases i
    · rw [Fin.sum_univ_two]
      norm_num [exampleP, exampleMcross]
    · exact absurd (by decide : (1 : Fin 2) ∈ ({1} : Finset (Fin 2))) hi

/-- Witness for C10 on the two-state example decomposition. -/
theorem mfpt_zero_exactly_on_diagonal_witness :
    (IsStochastic exampleP ∧ (∀ i, 0 ≤ examplePi i)
      ∧ ((0 : Fin 2) ≠ 1)
      ∧ 0 < ∑ i ∈ metastable_sets exampleDecomp 0, examplePi i
      ∧ IsMFPTVector exampleP (metastable_sets exampleDecomp 0) exampleMself
      ∧ IsMFPTVector exampleP (metastable_sets exampleDecomp 1) exampleMcross)
    ∧ (mfpt_set examplePi (metastable_sets exampleDecomp 0) exampleMself = 0
      ∧ 0 < mfpt_set examplePi (metastable_sets exampleDecomp 0)
          exampleMcross) := by
  have hmass : 0 < ∑ i ∈ metastable_sets exampleDecomp 0, examplePi i := by
    rw [exampleDecomp_sets0]
    norm_num [examplePi]
  exact ⟨⟨exampleP_stochastic, examplePi_prob_vector.1, by decide, hmass,
      example_mself_vec, example_mcross_vec⟩,
    mfpt_zero_exactly_on_diagonal exampleP exampleP_stochastic exampleDecomp
      examplePi examplePi_prob_vector.1 0 1 (by decide) hmass
      exampleMself exampleMcross example_mself_vec example_mcross_vec⟩

/-! ## TPTEngine pathway decomposition (spec section 4.6) -/

/-- The edge list of a path given as a vertex list. -/
def pathEdges {n : ℕ} (p : List (Fin n)) : List (Fin n × Fin n) :=
  p.zip p.tail

/-- Bottleneck capacity of a path through a flux network. -/
def bottleneck {n : ℕ} (f : Fin n → Fin n → ℚ) (p : List (Fin n)) : ℚ :=
  match (pathEdges p).map (fun e => f e.1 e.2) with
  | [] => 0
  | c :: cs => cs.foldr min c

/-- Modelled from the spec: a structurally valid extracted pathway starts
in A, never revisits A, ends in B, visits no state twice, and carries a
positive bottleneck flux bounded by every edge flux along it. -/
def ValidPath {n : ℕ} (f : Fin n → Fin n → ℚ) (A B : Finset (Fin n))
    (p : List (Fin n)) : Prop :=
  2 ≤ p.length
  ∧ (∃ a, p.head? = some a ∧ a ∈ A)
  ∧ (∀ v ∈ p.tail, v ∉ A)
  ∧ (∃ b, p.getLast? = some b ∧ b ∈ B)
  ∧ p.Nodup
  ∧ 0 < bottleneck f p
  ∧ ∀ e ∈ pathEdges p, bottleneck f p ≤ f e.1 e.2

instance validPathDecidable {n : ℕ} (f : Fin n → Fin n → ℚ)
    (A B : Finset (Fin n)) (p : List (Fin n)) :
    Decidable (ValidPath f A B p) := by
  unfold ValidPath
  infer_instance

/-- Subtract the extracted path flux along the path's edges. -/
def subtractPath {n : ℕ} (f : Fin n → Fin n → ℚ) (p : List (Fin n))
    (c : ℚ) : Fin n → Fin n → ℚ :=
  fun u v => f u v - c * ((pathEdges p).count (u, v) : ℚ)

/-- Modelled from the spec: the total net flux out of the source set A. -/
def totalFlux {n : ℕ} (f : Fin n → Fin n → ℚ) (A : Finset (Fin n)) : ℚ :=
  ∑ i ∈ A, ∑ j ∈ Aᶜ, f i j

/-- Depth-first search for a positive-flux path into B avoiding A and the
already visited states. -/
def dfsAux {n : ℕ} (f : Fin n → Fin n → ℚ) (A B : Finset (Fin n)) :
    ℕ → List (Fin n) → Fin n → Option (List (Fin n))
  | 0, _, _ => none
  | fuel + 1, visited, u =>
    if u ∈ B then some [u]
    else
      ((List.finRange n).filter (fun v =>
          decide (0 < f u v) && decide (v ∉ A) && decide (v ∉ visited))).foldl
        (fun acc v =>
          match acc with
          | some q => some q
          | none => (dfsAux f A B fuel (v :: visited) v).map
              (fun q => u :: q))
        none

/-- Find some positive-flux path from A to B. -/
def findPath {n : ℕ} (f : Fin n → Fin n → ℚ) (A B : Finset (Fin n)) :
    Option (List (Fin n)) :=
  (A.sort (· ≤ ·)).foldl
    (fun acc a =>
      match acc with
      | some q => some q
      | none => dfsAux f A B (n + 1) [a] a)
    none

/-- Modelled from the spec: greedy pathway decomposition — repeatedly
extract a positive-bottleneck path from A to B, subtract its bottleneck
flux from the network, and stop once the cumulative extracted flux reaches
the requested fraction of total flux (or no structurally valid path
remains; per spec section 7, extraction aborts rather than accept an
invalid path). -/
def pathwaysAux {n : ℕ} (A B : Finset (Fin n)) (fraction total : ℚ) :
    ℕ → (Fin n → Fin n → ℚ) → ℚ → List (List (Fin n) × ℚ)
  | 0, _, _ => []
  | fuel + 1, f, cum =>
    if fraction * total ≤ cum then []
    else
      match findPath f A B with
      | none => []
      | some p =>
        if ValidPath f A B p then
          (p, bottleneck f p) ::
            pathwaysAux A B fraction total fuel
              (subtractPath f p (bottleneck f p)) (cum + bottleneck f p)
        else []

/-- Pathway decomposition of a flux network at a target fraction. -/
def pathways {n : ℕ} (f : Fin n → Fin n → ℚ) (A B : Finset (Fin n))
    (fraction : ℚ) : List (List (Fin n) × ℚ) :=
  pathwaysAux A B fraction (totalFlux f A) (n * n + 1) f 0

theorem pathEdges_cons_cons {n : ℕ} (x y : Fin n) (t : List (Fin n)) :
    pathEdges (x :: y :: t) = (x, y) :: pathEdges (y :: t) := rfl

theorem mem_pathEdges_left {n : ℕ} {p : List (Fin n)} {e : Fin n × Fin n}
    (he : e ∈ pathEdges p) : e.1 ∈ p := by
  obtain ⟨u, v⟩ := e
  exact (List.mem_zip he).1

theorem mem_pathEdges_right {n : ℕ} {p : List (Fin n)} {e : Fin n × Fin n}
    (he : e ∈ pathEdges p) : e.2 ∈ p.tail := by
  obtain ⟨u, v⟩ := e
  exact (List.mem_zip he).2

theorem count_pathEdges_le_one {n : ℕ} {p : List (Fin n)} (hnd : p.Nodup)
    (e : Fin n × Fin n) : (pathEdges p).count e ≤ 1 := by
  induction p with
  | nil => simp [pathEdges]
  | cons x rest ih =>
    cases rest with
    | nil => simp [pathEdges]
    | cons y t =>
      rw [pathEdges_cons_cons, List.count_cons]
      have hnd' : (y :: t).Nodup := (List.nodup_cons.mp hnd).2
      have hxnot : x ∉ y :: t := (List.nodup_cons.mp hnd).1
      by_cases he : (x, y) = e
      · have h0 : (pathEdges (y :: t)).count e = 0 := by
          rw [List.count_eq_zero]
          intro hmem
          have := mem_pathEdges_left hmem
          rw [← he] at this
          exact hxnot this
        rw [h0, if_pos (by exact beq_iff_eq.mpr he)]
      · rw [if_neg (by simpa using he)]
        simpa using ih hnd'

theorem subtractPath_nonneg {n : ℕ} {f : Fin n → Fin n → ℚ}
    {A B : Finset (Fin n)} {p : List (Fin n)} (hf : ∀ u v, 0 ≤ f u v)
    (hp : ValidPath f A B p) :
    ∀ u v, 0 ≤ subtractPath f p (bottleneck f p) u v := by
  intro u v
  unfold subtractPath
  obtain ⟨-, -, -, -, hnd, hcpos, hcle⟩ := hp
  by_cases hmem : (u, v) ∈ pathEdges p
  · have h1 : (pathEdges p).count (u, v) = 1 := by
      have hle := count_pathEdges_le_one hnd (u, v)
      have hge : 0 < (pathEdges p).count (u, v) := List.count_pos_iff.mpr hmem
      omega
    rw [h1]
    have := hcle (u, v) hmem
    push_cast
    linarith
  · have h0 : (pathEdges p).count (u, v) = 0 := List.count_eq_zero.mpr hmem
    rw [h0]
    push_cast
    have := hf u v
    linarith

theorem totalFlux_nonneg {n : ℕ} {f : Fin n → Fin n → ℚ}
    (hf : ∀ u v, 0 ≤ f u v) (A : Finset (Fin n)) : 0 ≤ totalFlux f A := by
  refine Finset.sum_nonneg (fun i _ => ?_)
  exact Finset.sum_nonneg (fun j _ => hf i j)

theorem sum_count_source_target {n : ℕ} (A : Finset (Fin n))
    (l : List (Fin n × Fin n)) :
    (∑ i ∈ A, ∑ j ∈ Aᶜ, l.count (i, j))
      = (l.filter (fun e =>
          decide (e.1 ∈ A) && decide (e.2 ∉ A))).length := by
  induction l with
  | nil => simp
  | cons e l ih =>
    have hsplit : ∀ i ∈ A, ∀ j ∈ Aᶜ, (e :: l).count (i, j)
        = l.count (i, j) + if (i, j) = e then 1 else 0 := by
      intro i _ j _
      rw [List.count_cons]
      congr 1
      by_cases h : (i, j) = e
      · rw [if_pos h, if_pos (beq_iff_eq.mpr h.symm)]
      · rw [if_neg h, if_neg]
        simp only [beq_iff_eq]
        exact fun hh => h hh.symm
    calc (∑ i ∈ A, ∑ j ∈ Aᶜ, (e :: l).count (i, j))
        = ∑ i ∈ A, ∑ j ∈ Aᶜ,
            (l.count (i, j) + if (i, j) = e then 1 else 0) := by
          refine Finset.sum_congr rfl (fun i hi => ?_)
          exact Finset.sum_congr rfl (fun j hj => hsplit i hi j hj)
      _ = (∑ i ∈ A, ∑ j ∈ Aᶜ, l.count (i, j))
            + ∑ i ∈ A, ∑ j ∈ Aᶜ, if (i, j) = e then 1 else 0 := by
          rw [← Finset.sum_add_distrib]
          refine Finset.sum_congr rfl (fun i _ => ?_)
          rw [← Finset.sum_add_distrib]
      _ = (l.filter (fun e =>
            decide (e.1 ∈ A) && decide (e.2 ∉ A))).length
            + ∑ i ∈ A, ∑ j ∈ Aᶜ, if (i, j) = e then 1 else 0 := by rw [ih]
      _ = ((e :: l).filter (fun e =>
            decide (e.1 ∈ A) && decide (e.2 ∉ A))).length := by
          rw [← Finset.sum_product']
          have hind : (∑ x ∈ A ×ˢ Aᶜ, if x = e then 1 else 0)
              = if e ∈ A ×ˢ Aᶜ then 1 else 0 := by
            have := Finset.sum_ite_eq' (A ×ˢ Aᶜ) e (fun _ => (1 : ℕ))
            simpa using this
          rw [hind, List.filter_cons]
          by_cases hmem : e.1 ∈ A ∧ e.2 ∉ A
          · rw [if_pos (Finset.mem_product.mpr
              ⟨hmem.1, Finset.mem_compl.mpr hmem.2⟩)]
            rw [if_pos (by simp [hmem.1, hmem.2])]
            simp [Nat.add_comm]
          · rw [if_neg (fun hc => hmem ⟨(Finset.mem_product.mp hc).1,
              Finset.mem_compl.mp (Finset.mem_product.mp hc).2⟩)]
            rw [if_neg (by
              simp only [Bool.and_eq_true, decide_eq_true_eq]
              exact fun hc => hmem hc)]
            simp

theorem filter_pathEdges_length_one {n : ℕ} {f : Fin n → Fin n → ℚ}
    {A B : Finset (Fin n)} {p : List (Fin n)} (hp : ValidPath f A B p) :
    ((pathEdges p).filter (fun e =>
        decide (e.1 ∈ A) && decide (e.2 ∉ A))).length = 1 := by
  obtain ⟨hlen, ⟨a, hhead, haA⟩, htail, -, -, -, -⟩ := hp
  cases p with
  | nil => simp at hhead
  | cons x rest =>
    rw [List.head?_cons, Option.some.injEq] at hhead
    subst hhead
    cases rest with
    | nil => simp at hlen
    | cons y t =>
      rw [pathEdges_cons_cons, List.filter_cons]
      have hyA : y ∉ A := htail y (by simp)
      rw [if_pos (by simp [haA, hyA])]
      rw [List.length_cons]
      have h0 : ((pathEdges (y :: t)).filter (fun e =>
          decide (e.1 ∈ A) && decide (e.2 ∉ A))) = [] := by
        rw [List.filter_eq_nil_iff]
        intro e he
        have h1 : e.1 ∈ y :: t := mem_pathEdges_left he
        have h2 : e.1 ∉ A := htail e.1 (by simpa using h1)
        simp [h2]
      rw [h0]
      rfl

theorem totalFlux_subtractPath {n : ℕ} {f : Fin n → Fin n → ℚ}
    {A B : Finset (Fin n)} {p : List (Fin n)} (c : ℚ)
    (hp : ValidPath f A B p) :
    totalFlux (subtractPath f p c) A = totalFlux f A - c := by
  unfold totalFlux subtractPath
  have hsplit : ∀ i : Fin n,
      (∑ j ∈ Aᶜ, (f i j - c * ((pathEdges p).count (i, j) : ℚ)))
        = (∑ j ∈ Aᶜ, f i j)
          - ∑ j ∈ Aᶜ, c * ((pathEdges p).count (i, j) : ℚ) :=
    fun i => Finset.sum_sub_distrib
  rw [Finset.sum_congr rfl (fun i _ => hsplit i), Finset.sum_sub_distrib]
  congr 1
  have h2 : ∑ i ∈ A, ∑ j ∈ Aᶜ, c * ((pathEdges p).count (i, j) : ℚ)
      = c * ∑ i ∈ A, ∑ j ∈ Aᶜ, ((pathEdges p).count (i, j) : ℚ) := by
    rw [Finset.mul_sum]
    refine Finset.sum_congr rfl (fun i _ => ?_)
    rw [Finset.mul_sum]
  rw [h2]
  have h3 : (∑ i ∈ A, ∑ j ∈ Aᶜ, ((pathEdges p).count (i, j) : ℚ)) = 1 := by
    have hnat := sum_count_source_target A (pathEdges p)
    have hcast : (∑ i ∈ A, ∑ j ∈ Aᶜ, ((pathEdges p).count (i, j) : ℚ))
        = ((∑ i ∈ A, ∑ j ∈ Aᶜ, (pathEdges p).count (i, j) : ℕ) : ℚ) := by
      push_cast
      rfl
    rw [hcast, hnat, filter_pathEdges_length_one hp]
    norm_num
  rw [h3, mul_one]

theorem sumFluxes_le_totalFlux_aux {n : ℕ} (A B : Finset (Fin n))
    (fraction total : ℚ) :
    ∀ (fuel : ℕ) (f : Fin n → Fin n → ℚ) (cum : ℚ),
      (∀ u v, 0 ≤ f u v) →
      ((pathwaysAux A B fraction total fuel f cum).map Prod.snd).sum
        ≤ totalFlux f A := by
  intro fuel
  induction fuel with
  | zero =>
    intro f cum hf
    simpa [pathwaysAux] using totalFlux_nonneg hf A
  | succ fuel ih =>
    intro f cum hf
    by_cases hstop : fraction * total ≤ cum
    · simpa [pathwaysAux, hstop] using totalFlux_nonneg hf A
    · cases hfind : findPath f A B with
      | none =>
        simpa [pathwaysAux, hstop, hfind] using totalFlux_nonneg hf A
      | some p =>
        by_cases hvalid : ValidPath f A B p
        · have h1 := ih (subtractPath f p (bottleneck f p))
            (cum + bottleneck f p) (subtractPath_nonneg hf hvalid)
          have h2 := totalFlux_subtractPath (bottleneck f p) hvalid
          rw [h2] at h1
          simp only [pathwaysAux, if_neg hstop, hfind, if_pos hvalid,
            List.map_cons, List.sum_cons]
          linarith
        · simpa [pathwaysAux, hstop, hfind, hvalid]
            using totalFlux_nonneg hf A

theorem pathways_count_mono_aux {n : ℕ} (A B : Finset (Fin n))
    (fr1 fr2 total : ℚ) (hle : fr1 ≤ fr2) (htot : 0 ≤ total) :
    ∀ (fuel : ℕ) (f : Fin n → Fin n → ℚ) (cum : ℚ),
      (pathwaysAux A B fr1 total fuel f cum).length
        ≤ (pathwaysAux A B fr2 total fuel f cum).length := by
  intro fuel
  induction fuel with
  | zero =>
    intro f cum
    simp [pathwaysAux]
  | succ fuel ih =>
    intro f cum
    by_cases h1 : fr1 * total ≤ cum
    · simp [pathwaysAux, h1]
    · have h2 : ¬ fr2 * total ≤ cum := by
        intro h2
        exact h1 (le_trans (mul_le_mul_of_nonneg_right hle htot) h2)
      simp only [pathwaysAux, if_neg h1, if_neg h2]
      cases hfind : findPath f A B with
      | none => simp
      | some p =>
        by_cases hv : ValidPath f A B p
        · simp only [if_pos hv, List.length_cons]
          exact Nat.succ_le_succ (ih _ _)
        · simp [hv]

/-- C7: for every nonnegative FluxNetwork, the fluxes of the extracted
pathways sum to at most the total net flux out of A, and raising the
target fraction from 0.5 to 0.99 never decreases the number of returned
pathways. -/
theorem pathway_decomposition_bounds {n : ℕ} (f : Fin n → Fin n → ℚ)
    (A B : Finset (Fin n)) (hf : ∀ u v, 0 ≤ f u v) :
    (∀ fraction, ((pathways f A B fraction).map Prod.snd).sum
        ≤ totalFlux f A)
    ∧ (pathways f A B (1/2)).length ≤ (pathways f A B (99/100)).length := by
  constructor
  · intro fraction
    exact sumFluxes_le_totalFlux_aux A B fraction (totalFlux f A)
      (n * n + 1) f 0 hf
  · exact pathways_count_mono_aux A B (1/2) (99/100) (totalFlux f A)
      (by norm_num) (totalFlux_nonneg hf A) (n * n + 1) f 0

/-- Flux network instantiating the pathway decomposition theorem. -/
def exampleFlux : Fin 3 → Fin 3 → ℚ :=
  ![![0, 2, 1], ![0, 0, 2], ![0, 0, 0]]

/-- Witness for C7 on the 3-state flux network. -/
theorem pathway_decomposition_bounds_witness :
    (∀ u v, 0 ≤ exampleFlux u v)
    ∧ ((∀ fraction, ((pathways exampleFlux exampleA exampleB fraction).map
          Prod.snd).sum ≤ totalFlux exampleFlux exampleA)
       ∧ (pathways exampleFlux exampleA exampleB (1/2)).length
         ≤ (pathways exampleFlux exampleA exampleB (99/100)).length) := by
  have hf : ∀ u v, 0 ≤ exampleFlux u v := by
    intro u v
    fin_cases u <;> fin_cases v <;> norm_num [exampleFlux]
  exact ⟨hf, pathway_decomposition_bounds exampleFlux exampleA exampleB hf⟩

end MSM
